import Mathlib

/-!
Verification development for `update_counts.py` (serenity-fixmes).

The Python source is shallowly embedded: strings are modelled as `List Char`
(Python `str` semantics for `strip`, `upper`, `count`, `split`, `startswith`,
`endswith` are reimplemented), the git/grep subprocess boundary is modelled by
explicit result values passed in, the in-memory cache (a Python `dict`) is an
association list, and the file-system tree walked by `generate_flame_graph` is
an inductive tree of directories and files.
-/

set_option maxRecDepth 100000

namespace SerenityFixmes

/-! ## Python string primitives -/

/-- Python `str.isspace` for the whitespace characters relevant to `str.strip()`. -/
def pyIsSpace (c : Char) : Bool :=
  c == ' ' || c == '\t' || c == '\n' || c == '\r' || c == '\x0b' || c == '\x0c'

/-- Python `str.strip()`: remove leading and trailing whitespace. -/
def pyStrip (s : List Char) : List Char :=
  ((s.dropWhile pyIsSpace).reverse.dropWhile pyIsSpace).reverse

/-- Python `str.upper()` (ASCII fragment, which is all the source's markers need). -/
def pyUpper (s : List Char) : List Char :=
  s.map Char.toUpper

/-- `isPre a b` is true when `a` is a prefix of `b` (Python `str.startswith`). -/
def isPre : List Char → List Char → Bool
  | [], _ => true
  | _ :: _, [] => false
  | a :: as, b :: bs => a == b && isPre as bs

/-- Python `str.endswith`. -/
def endsL (suffx s : List Char) : Bool :=
  isPre suffx.reverse s.reverse

/-- Auxiliary scanner for `countOcc`: `skip` is the number of positions still
covered by the previously counted (non-overlapping) occurrence. -/
def countOccAux (needle : List Char) : List Char → Nat → Nat
  | [], _ => 0
  | _ :: rest, Nat.succ k => countOccAux needle rest k
  | c :: rest, 0 =>
    if isPre needle (c :: rest) then 1 + countOccAux needle rest (needle.length - 1)
    else countOccAux needle rest 0

/-- Python `str.count`: number of non-overlapping occurrences of `needle`,
scanning left to right (`"".count` inside a string of length n is n+1). -/
def countOcc (needle hay : List Char) : Nat :=
  match needle with
  | [] => hay.length + 1
  | _ :: _ => countOccAux needle hay 0

/-- Python `str.split("\n")`: always nonempty, `""` splits to `[""]`,
a trailing newline yields a trailing empty fragment. -/
def pySplitNl : List Char → List (List Char)
  | [] => [[]]
  | c :: rest =>
    if c = '\n' then [] :: pySplitNl rest
    else
      match pySplitNl rest with
      | g :: gs => (c :: g) :: gs
      | [] => [[c]]

/-! ## The grep-based per-commit counters (`count_fixmes_here`,
`count_deprecated_strings_here`, `count_deprecated_files_here`)

Each of the three functions runs `git grep` with `check=False`, asserts
`returncode in [0, 1]`, splits stdout on newlines, asserts the final fragment
is empty, and returns `len(lines)`.  The subprocess result is modelled as an
explicit value; `none` models an `AssertionError` aborting the run. -/

structure GrepResult where
  returncode : Nat
  stdout : List Char
  deriving DecidableEq, Repr

/-- `count_fixmes_here()` from the source: grep for `FIXME|TODO` (case
insensitive), assert the exit status is 0 or 1, split stdout on `"\n"`,
assert the last fragment is empty, return `len(lines)`. -/
def count_fixmes_here (r : GrepResult) : Option Nat :=
  if r.returncode = 0 ∨ r.returncode = 1 then
    let lines := pySplitNl r.stdout
    if lines.getLast? = some [] then some lines.length else none
  else none

/-- `count_deprecated_strings_here()` from the source: identical postprocessing
of the `git grep DeprecatedFlyString` result. -/
def count_deprecated_strings_here (r : GrepResult) : Option Nat :=
  if r.returncode = 0 ∨ r.returncode = 1 then
    let lines := pySplitNl r.stdout
    if lines.getLast? = some [] then some lines.length else none
  else none

/-- `count_deprecated_files_here()` from the source: identical postprocessing
of the `git grep -F DeprecatedFile` result. -/
def count_deprecated_files_here (r : GrepResult) : Option Nat :=
  if r.returncode = 0 ∨ r.returncode = 1 then
    let lines := pySplitNl r.stdout
    if lines.getLast? = some [] then some lines.length else none
  else none

/-- The stdout `git grep` produces when it reports the matching lines `ls`:
every matching line is printed followed by a newline.  (Matching lines
themselves contain no newline.) -/
def grepStdout (ls : List (List Char)) : List Char :=
  ls.foldr (fun l acc => l ++ '\n' :: acc) []

/-! ## The commit metric cache

The Python `dict[str, tuple[int, int, int]]` is modelled as an association
list; `lookup_commit` only ever inserts keys that are absent, so list length
matches `len(cache)`. -/

abbrev Cache : Type := List (String × (Nat × Nat × Nat))

def hasKey (cache : Cache) (commit : String) : Bool :=
  cache.any (fun e => e.1 = commit)

def getKey (cache : Cache) (commit : String) : Option (Nat × Nat × Nat) :=
  (cache.find? (fun e => e.1 = commit)).map Prod.snd

/-- `cache[commit] = value` for a key that is not yet present. -/
def insertKey (cache : Cache) (commit : String) (v : Nat × Nat × Nat) : Cache :=
  cache ++ [(commit, v)]

/-- `SAVE_CACHE_INV_FREQ` from the source. -/
def SAVE_CACHE_INV_FREQ : Nat := 200

/-! ### `save_cache` as a sequence of file-system operations (for C3)

`save_cache` runs `open(FILENAME_CACHE, "w")` — which truncates the existing
file in place — and then `json.dump(...)` into that handle.  To reason about
what a reader (or a crash) can observe we record the durable effects as an
explicit operation list. -/

inductive FsOp where
  /-- `open(FILENAME_CACHE, "w")`: the durable file is truncated to empty. -/
  | openTrunc : FsOp
  /-- `json.dump(cache, cache_file, ...)`: the serialized bytes are written. -/
  | writeAll : List Char → FsOp
  deriving DecidableEq, Repr

/-- Effect of one operation on the durable cache-file content. -/
def applyFsOp (content : List Char) : FsOp → List Char
  | .openTrunc => []
  | .writeAll d => content ++ d

def applyFsOps (content : List Char) (ops : List FsOp) : List Char :=
  ops.foldl applyFsOp content

/-- Python's `<` on strings: lexicographic comparison by code point. -/
def strLt : List Char → List Char → Bool
  | [], [] => false
  | [], _ :: _ => true
  | _ :: _, [] => false
  | a :: as, b :: bs =>
    if a.toNat < b.toNat then true
    else if b.toNat < a.toNat then false
    else strLt as bs

/-- Insertion sort of the keys, matching `json.dump(..., sort_keys=True)`
(Python compares strings by code points). -/
def insertSorted (x : String × (Nat × Nat × Nat)) :
    List (String × (Nat × Nat × Nat)) → List (String × (Nat × Nat × Nat))
  | [] => [x]
  | y :: ys => if strLt x.1.toList y.1.toList then x :: y :: ys else y :: insertSorted x ys

def sortByKey : List (String × (Nat × Nat × Nat)) → List (String × (Nat × Nat × Nat))
  | [] => []
  | x :: xs => insertSorted x (sortByKey xs)

/-- One serialized triple, `[\nA,\nB,\nC\n]`, as produced by
`json.dump(..., separators=(",", ":"), indent=0)`. -/
def serializeTriple (v : Nat × Nat × Nat) : List Char :=
  '[' :: '\n' :: (toString v.1).toList ++ ',' :: '\n' :: (toString v.2.1).toList
    ++ ',' :: '\n' :: (toString v.2.2).toList ++ '\n' :: [']']

def serializeEntry (e : String × (Nat × Nat × Nat)) : List Char :=
  '"' :: e.1.toList ++ '"' :: ':' :: serializeTriple e.2

def joinSep (sep : List Char) : List (List Char) → List Char
  | [] => []
  | [x] => x
  | x :: y :: ys => x ++ sep ++ joinSep sep (y :: ys)

/-- `json.dump(cache, f, sort_keys=True, separators=(",", ":"), indent=0)`. -/
def serializeCache (cache : Cache) : List Char :=
  match sortByKey cache with
  | [] => ['{', '}']
  | es => '{' :: '\n' :: joinSep [',', '\n'] (es.map serializeEntry) ++ '\n' :: ['}']

/-- `save_cache(cache)` from the source: truncate the live cache file in
place, then write the full serialized mapping into it. -/
def save_cache (cache : Cache) : List FsOp :=
  [.openTrunc, .writeAll (serializeCache cache)]

/-- Durable cache-file content if the process is killed after the first `k`
operations of a flush that started from file content `content`. -/
def fileAfterCrash (content : List Char) (cache : Cache) (k : Nat) : List Char :=
  applyFsOps content ((save_cache cache).take k)

/-! ### `lookup_commit` (C4, C5, C6)

The side effects of the miss path — `git checkout`, the three greps, and the
conditional `save_cache` — are recorded in an explicit effect list.  The grep
results that the subprocess boundary would deliver are supplied in a `World`.
A `none` result models the run aborting (a `CalledProcessError` from
`check=True` or an `AssertionError` in a counter); the in-memory cache is
unchanged in that case because `cache[commit] = ...` runs only after all
three counters returned. -/

structure World where
  checkoutOk : Bool
  fixmesRes : GrepResult
  depStrRes : GrepResult
  depFilesRes : GrepResult
  deriving DecidableEq, Repr

inductive Effect where
  | checkout : String → Effect
  | grepFixmes : Effect
  | grepDepStr : Effect
  | grepDepFiles : Effect
  | saveCache : Effect
  deriving DecidableEq, Repr

/-- The row `lookup_commit` returns (the `human_readable_time` field is a pure
textual rendering of `unix_timestamp` and carries no further information). -/
structure Row where
  commit : String
  unix_timestamp : Int
  fixmes : Nat
  deprecated_strings : Nat
  deprecated_files : Nat
  deriving DecidableEq, Repr

structure LookupOut where
  cache : Cache
  row : Row
  effs : List Effect
  deriving DecidableEq, Repr

/-- `lookup_commit(commit, date, cache)` from the source.  On a hit the stored
triple is unpacked and returned; on a miss the commit is checked out, the
three counters run, the complete triple is stored, and the cache is saved
when `len(cache) % SAVE_CACHE_INV_FREQ == 0`. -/
def lookup_commit (commit : String) (date : Int) (cache : Cache) (w : World) :
    Option LookupOut :=
  match getKey cache commit with
  | some (f, ds, df) =>
    some ⟨cache, ⟨commit, date, f, ds, df⟩, []⟩
  | none =>
    if w.checkoutOk then
      match count_fixmes_here w.fixmesRes with
      | none => none
      | some f =>
        match count_deprecated_strings_here w.depStrRes with
        | none => none
        | some ds =>
          match count_deprecated_files_here w.depFilesRes with
          | none => none
          | some df =>
            let cache' := insertKey cache commit (f, ds, df)
            let effs :=
              [.checkout commit, .grepFixmes, .grepDepStr, .grepDepFiles] ++
                if cache'.length % SAVE_CACHE_INV_FREQ = 0 then [Effect.saveCache] else []
            some ⟨cache', ⟨commit, date, f, ds, df⟩, effs⟩
    else none

/-- The cache-consuming part of `run()`: fold `lookup_commit` over the commit
list, then `save_cache(cache)` once unconditionally. -/
def runCommits (cache : Cache) : List (String × Int × World) → Option (Cache × List Row × List Effect)
  | [] => some (cache, [], [])
  | (c, d, w) :: rest =>
    match lookup_commit c d cache w with
    | none => none
    | some out =>
      match runCommits out.cache rest with
      | none => none
      | some (cf, rows, effs) => some (cf, out.row :: rows, out.effs ++ effs)

/-- `run()`'s cache phase: all lookups followed by the final unconditional
`save_cache(cache)`. -/
def runCachePhase (cache : Cache) (cs : List (String × Int × World)) :
    Option (Cache × List Row × List Effect) :=
  (runCommits cache cs).map (fun (cf, rows, effs) => (cf, rows, effs ++ [Effect.saveCache]))

/-! ## The flame-graph builder (`generate_flame_graph`)

`Node` is the Python class of the same name: a name (one path segment), an
ordered child list, and the two counters defaulting to 0. -/

structure Node where
  name : String
  children : List Node
  todos : Nat
  locs : Nat

/-- The two path segments `get_node` rejects. -/
def banned (s : String) : Bool :=
  s = ".git" || s = ".devcontainer"

/-- The linear child search in `get_node`: apply `g` to the first child named
`c`, or append `g` applied to a fresh `Node(name=c, children=[])`. -/
def setChild (g : Node → Node) (c : String) : List Node → List Node
  | [] => [g ⟨c, [], 0, 0⟩]
  | x :: xs => if x.name = c then g x :: xs else x :: setChild g c xs

/-- `get_node(path)` followed by a field update `f` of the returned node, as a
pure tree transformation.  Walking the path segments: a banned segment makes
`get_node` return `None` (so `f` is never applied), but the nodes created for
the earlier segments persist — exactly the Python side effect. -/
def goNode (f : Node → Node) : List String → Node → Node
  | [], n => f n
  | c :: rest, n =>
    if banned c then n
    else ⟨n.name, setChild (fun m => goNode f rest m) c n.children, n.todos, n.locs⟩

/-- First child with the given name (the same linear search, read-only). -/
def findChild : List Node → String → Option Node
  | [], _ => none
  | x :: xs, c => if x.name = c then some x else findChild xs c

/-- Read-only navigation to the node at a path (for stating theorems). -/
def findPath : Node → List String → Option Node
  | n, [] => some n
  | n, c :: rest =>
    match findChild n.children c with
    | some child => findPath child rest
    | none => none

def sumTodos (cs : List Node) : Nat := (cs.map Node.todos).sum

def sumLocs (cs : List Node) : Nat := (cs.map Node.locs).sum

/-! ### The per-file line scan (C8) -/

def kwFixme : List Char := ['F', 'I', 'X', 'M', 'E']

def kwTodo : List Char := ['T', 'O', 'D', 'O']

def slashSlash : List Char := ['/', '/']

/-- One iteration of the line loop: `line = line.strip().upper()`, then
`todos += line.count("FIXME") + line.count("TODO")`, and `locs += 1` when the
folded line is nonempty and does not start with `//`.  Returns the
`(todos, locs)` contribution of the line. -/
def scanLine (line : List Char) : Nat × Nat :=
  let l := pyUpper (pyStrip line)
  (countOcc kwFixme l + countOcc kwTodo l,
    if l ≠ [] ∧ ¬ isPre slashSlash l = true then 1 else 0)

/-- The whole per-file loop: sum of the per-line contributions. -/
def scanFile (lines : List (List Char)) : Nat × Nat :=
  lines.foldl (fun acc line => (acc.1 + (scanLine line).1, acc.2 + (scanLine line).2)) (0, 0)

/-! ### The file filters -/

/-- The extension list from the source, verbatim — including the two entries
`"*.txt"` and `"*.cmake"` that are matched by `str.endswith` like the rest. -/
def extList : List String :=
  [".h", ".c", ".cpp", ".html", ".js", ".sh", "*.txt", "*.cmake"]

def matchesExt (name : String) : Bool :=
  extList.any (fun ext => endsL ext.toList name.toList)

/-- `full_name` of a walk entry: `os.path.join` starting from `"."`. -/
def fullName (p : List String) : String :=
  "./" ++ String.intercalate "/" p

/-- The two known-corrupt fixture files skipped explicitly. -/
def excludedFiles : List String :=
  ["./Tests/LibWeb/Layout/input/html-encoding-detection-crash.html",
   "./Tests/LibWeb/Layout/input/utf-16-be-xhtml-file-should-decode-correctly.html"]

def hasBanned (p : List String) : Bool :=
  p.any banned

/-! ### The file-system model and the `os.walk(".", topdown=False)` loop

A file's content is `some lines` when it decodes as text and `none` when
reading it raises `UnicodeDecodeError` (in which case the Python loop has
already created the node but `continue`s before assigning its counters). -/

inductive Entry where
  | file : String → Option (List (List Char)) → Entry
  | dir : String → List Entry → Entry

def entryName : Entry → String
  | .file n _ => n
  | .dir n _ => n

/-- Walk state: the tree rooted at `Node(".", [])` plus `ratios_list`. -/
structure WalkSt where
  tree : Node
  ratios : List (Nat × Nat × String)

/-- The `for name in files` body: extension filter, fixture-file filter,
`get_node` (with its node-creation side effect even when it returns `None`),
the content scan, the counter assignment, and the `ratios_list` append. -/
def fileStep (st : WalkSt) (p : List String) (name : String)
    (content : Option (List (List Char))) : WalkSt :=
  if matchesExt name = false then st
  else if fullName (p ++ [name]) ∈ excludedFiles then st
  else
    let pc := p ++ [name]
    match content with
    | none => { st with tree := goNode id pc st.tree }
    | some lines =>
      let s := scanFile lines
      let tree' := goNode (fun n => ⟨n.name, n.children, s.1, s.2⟩) pc st.tree
      if hasBanned pc = true then { st with tree := tree' }
      else if s.1 ≠ 0 ∧ s.2 ≠ 0 then
        ⟨tree', st.ratios ++ [(s.1, s.2, String.intercalate "/" pc)]⟩
      else { st with tree := tree' }

/-- The `for name in dirs` body: `get_node` and the bottom-up aggregation
`node.todos = sum(child.todos ...)`, `node.locs = sum(child.locs ...)`. -/
def dirStep (st : WalkSt) (p : List String) (name : String) : WalkSt :=
  { st with
    tree := goNode (fun n => ⟨n.name, n.children, sumTodos n.children, sumLocs n.children⟩)
      (p ++ [name]) st.tree }

/-- The `for name in files` loop body applied to one directory entry. -/
def fileEntryStep (p : List String) (acc : WalkSt) : Entry → WalkSt
  | .file n c => fileStep acc p n c
  | .dir _ _ => acc

/-- The `for name in dirs` loop body applied to one directory entry. -/
def dirEntryStep (p : List String) (acc : WalkSt) : Entry → WalkSt
  | .file _ _ => acc
  | .dir n _ => dirStep acc p n

mutual

/-- `os.walk(..., topdown=False)` yields every subdirectory's triples before
the current directory's: process the subtrees left to right. -/
def walkSubs (st : WalkSt) (p : List String) (l : List Entry) : WalkSt :=
  match l with
  | [] => st
  | .file _ _ :: es => walkSubs st p es
  | .dir n sub :: es => walkSubs (walkDir st (p ++ [n]) sub) p es
termination_by (sizeOf l, 0)

/-- Processing of one directory: all deeper triples first (`topdown=False`),
then this directory's own triple — the `for name in files` loop, then the
`for name in dirs` loop. -/
def walkDir (st : WalkSt) (p : List String) (es : List Entry) : WalkSt :=
  es.foldl (dirEntryStep p) (es.foldl (fileEntryStep p) (walkSubs st p es))
termination_by (sizeOf es, 1)

end

/-- The full walk of `generate_flame_graph`, starting from
`Node(name=".", children=[])` and an empty `ratios_list`. -/
def flameWalk (fs : List Entry) : WalkSt :=
  walkDir ⟨⟨".", [], 0, 0⟩, []⟩ [] fs

def flameTree (fs : List Entry) : Node :=
  (flameWalk fs).tree

/-! ### Serialization: `set_value` (C7) and the ratio report (C9) -/

/-- Serialized output node.  The Python dict has a `"children"` key exactly
when the pruned child list is nonempty; here `children = []` encodes the
absent key (`new_node.get("children", [])` defaults to `[]`). -/
structure OutNode where
  name : String
  value : Nat
  children : List OutNode

/-- Truthiness of `new_child["value"] or new_child.get("children", [])`. -/
def keepOut (c : OutNode) : Bool :=
  c.value != 0 || !c.children.isEmpty

mutual

/-- `set_value(calculate, node)` from the source. -/
def setValue (calculate : Node → Nat) (n : Node) : OutNode :=
  ⟨n.name, calculate n, setKids calculate n.children⟩
termination_by (sizeOf n, 1)
decreasing_by
  apply Prod.Lex.left
  cases n
  simp
  all_goals omega

/-- The child loop of `set_value`: recurse, then keep the new child only when
its value is nonzero or it has retained children of its own. -/
def setKids (calculate : Node → Nat) (l : List Node) : List OutNode :=
  match l with
  | [] => []
  | x :: xs =>
    let c := setValue calculate x
    if keepOut c = true then c :: setKids calculate xs else setKids calculate xs
termination_by (sizeOf l, 0)
decreasing_by
  all_goals apply Prod.Lex.left
  all_goals simp
  all_goals omega

end

/-- All strict descendants of a node (children, then their descendants). -/
def descs (n : Node) : List Node :=
  n.children.attach.flatMap (fun c => c.1 :: descs c.1)
termination_by sizeOf n
decreasing_by
  have h := List.sizeOf_lt_of_mem c.2
  cases n
  simp at h ⊢
  all_goals omega

/-- `f"{e[2]:.2%}"`: the ratio `t / l` as a percentage with two decimals.
Python formats the IEEE double closest to `t / l`; this model rounds the
exact rational `10000 * t / l` half-to-even, which agrees whenever the ratio
is exactly representable (in particular on every exact decimal case). -/
def formatPercent (t l : Nat) : List Char :=
  let n := 10000 * t
  let q := n / l
  let r := n % l
  let scaled :=
    if 2 * r < l then q
    else if 2 * r > l then q + 1
    else if q % 2 = 0 then q else q + 1
  (toString (scaled / 100)).toList ++ '.' ::
    (toString ((scaled % 100) / 10)).toList ++ (toString (scaled % 10)).toList ++ ['%']

/-- One line of `ratio.csv`: `f"{e[0]},{e[1]},{e[2]:.2%},{e[3]}\n"` (without
the trailing newline). -/
def ratioLine (e : Nat × Nat × String) : List Char :=
  (toString e.1).toList ++ ',' :: (toString e.2.1).toList ++ ',' ::
    formatPercent e.1 e.2.1 ++ ',' :: e.2.2.toList

/-- `ratio.csv` as a list of lines: the header then one line per entry. -/
def ratioReport (entries : List (Nat × Nat × String)) : List (List Char) :=
  "TODO,LOC,TODO/LOC,FILE".toList :: entries.map ratioLine

/-! ### The walk as a flat operation sequence

Every tree mutation the walk performs is one `get_node`-and-update, i.e. one
`goNode` application.  Flattening the walk into the ordered list of these
operations lets the aggregation invariant be established once and preserved
through the remaining operations uniformly. -/

inductive OpF where
  /-- `node.todos = todos; node.locs = locs` after a successful scan. -/
  | setv : Nat → Nat → OpF
  /-- the node was created/looked up, but `UnicodeDecodeError` aborted the
  scan before any assignment. -/
  | idf : OpF
  /-- `node.todos = sum(...); node.locs = sum(...)` for a directory. -/
  | agg : OpF

def appF : OpF → Node → Node
  | .setv t l, n => ⟨n.name, n.children, t, l⟩
  | .idf, n => n
  | .agg, n => ⟨n.name, n.children, sumTodos n.children, sumLocs n.children⟩

abbrev Op := List String × OpF

def applyOp (t : Node) (o : Op) : Node :=
  goNode (appF o.2) o.1 t

def applyOps (t : Node) (ops : List Op) : Node :=
  ops.foldl applyOp t

/-- The tree operation (if any) performed for one file entry. -/
def fileOps (p : List String) (name : String) (content : Option (List (List Char))) :
    List Op :=
  if matchesExt name = false then []
  else if fullName (p ++ [name]) ∈ excludedFiles then []
  else
    match content with
    | none => [(p ++ [name], .idf)]
    | some lines => [(p ++ [name], .setv (scanFile lines).1 (scanFile lines).2)]

def entryFileOps (p : List String) : Entry → List Op
  | .file n c => fileOps p n c
  | .dir _ _ => []

def entryAggOps (p : List String) : Entry → List Op
  | .file _ _ => []
  | .dir n _ => [(p ++ [n], OpF.agg)]

mutual

def opsSubs (p : List String) (l : List Entry) : List Op :=
  match l with
  | [] => []
  | .file _ _ :: es => opsSubs p es
  | .dir n sub :: es => opsDir (p ++ [n]) sub ++ opsSubs p es
termination_by (sizeOf l, 0)

def opsDir (p : List String) (es : List Entry) : List Op :=
  opsSubs p es ++ es.flatMap (entryFileOps p) ++ es.flatMap (entryAggOps p)
termination_by (sizeOf es, 1)

end

/-! ### Structural predicates on the file-system model -/

/-- `DirAt es q sub`: following the path `q` from the directory listing `es`
leads to a directory with listing `sub`. -/
inductive DirAt : List Entry → List String → List Entry → Prop
  | here {es : List Entry} {n : String} {sub : List Entry} :
      Entry.dir n sub ∈ es → DirAt es [n] sub
  | there {es : List Entry} {n : String} {sub sub' : List Entry} {q : List String} :
      Entry.dir n sub ∈ es → DirAt sub q sub' → DirAt es (n :: q) sub'

/-- `FileAt es q c`: following the path `q` from the listing `es` leads to a
file with content `c`. -/
inductive FileAt : List Entry → List String → Option (List (List Char)) → Prop
  | here {es : List Entry} {n : String} {c : Option (List (List Char))} :
      Entry.file n c ∈ es → FileAt es [n] c
  | there {es : List Entry} {n : String} {sub : List Entry} {q : List String}
      {c : Option (List (List Char))} :
      Entry.dir n sub ∈ es → FileAt sub q c → FileAt es (n :: q) c

/-- Well-formed directory listing: sibling names are distinct (true of any
real file system) at every level. -/
inductive WF : List Entry → Prop
  | mk {es : List Entry} :
      (es.map entryName).Nodup →
      (∀ n sub, Entry.dir n sub ∈ es → WF sub) →
      WF es

/-- No path segment is one of the two excluded directory names. -/
def Allowed (p : List String) : Prop :=
  ∀ c ∈ p, banned c = false

/-! ### The ratio list as a pure function of the file system

`ratios_list` appends depend only on the file path and content (never on the
tree), so the final list is this straightforward recursive collection. -/

/-- The `ratios_list` rows contributed by one file entry. -/
def fileRatio (p : List String) (name : String) (content : Option (List (List Char))) :
    List (Nat × Nat × String) :=
  if matchesExt name = false then []
  else if fullName (p ++ [name]) ∈ excludedFiles then []
  else
    match content with
    | none => []
    | some lines =>
      let s := scanFile lines
      if hasBanned (p ++ [name]) = true then []
      else if s.1 ≠ 0 ∧ s.2 ≠ 0 then [(s.1, s.2, String.intercalate "/" (p ++ [name]))]
      else []

def entryFileRatio (p : List String) : Entry → List (Nat × Nat × String)
  | .file n c => fileRatio p n c
  | .dir _ _ => []

mutual

def ratiosSubs (p : List String) (l : List Entry) : List (Nat × Nat × String) :=
  match l with
  | [] => []
  | .file _ _ :: es => ratiosSubs p es
  | .dir n sub :: es => ratiosDir (p ++ [n]) sub ++ ratiosSubs p es
termination_by (sizeOf l, 0)

def ratiosDir (p : List String) (es : List Entry) : List (Nat × Nat × String) :=
  ratiosSubs p es ++ es.flatMap (entryFileRatio p)
termination_by (sizeOf es, 1)

end

/-! ## Helper lemmas -/

theorem pySplitNl_ne_nil (s : List Char) : pySplitNl s ≠ [] := by
  match s with
  | [] => simp [pySplitNl]
  | c :: rest =>
    simp only [pySplitNl]
    split
    · simp
    · match h : pySplitNl rest with
      | [] => simp
      | g :: gs => simp

theorem pySplitNl_append_newline (l rest : List Char) (h : '\n' ∉ l) :
    pySplitNl (l ++ '\n' :: rest) = l :: pySplitNl rest := by
  induction l with
  | nil => simp [pySplitNl]
  | cons c l ih =>
    have hc : ¬ c = '\n' := by
      intro e
      exact h (e ▸ List.mem_cons_self c l)
    have h' : '\n' ∉ l := fun m => h (List.mem_cons_of_mem _ m)
    simp only [List.cons_append, pySplitNl, if_neg hc]
    rw [show l.append ('\n' :: rest) = l ++ '\n' :: rest from rfl, ih h']

/-- On grep output of `k` matching lines, `pySplitNl` yields the `k` lines plus
the trailing empty fragment that `split("\n")` produces. -/
theorem pySplitNl_grepStdout (ls : List (List Char)) (h : ∀ l ∈ ls, '\n' ∉ l) :
    pySplitNl (grepStdout ls) = ls ++ [[]] := by
  induction ls with
  | nil => simp [grepStdout, pySplitNl]
  | cons l ls ih =>
    have step : grepStdout (l :: ls) = l ++ '\n' :: grepStdout ls := rfl
    rw [step, pySplitNl_append_newline l _ (h l (List.mem_cons_self l ls)),
      ih (fun x hx => h x (List.mem_cons_of_mem _ hx))]
    simp

theorem isPre_iff_append (a b : List Char) : isPre a b = true ↔ ∃ t, b = a ++ t := by
  induction a generalizing b with
  | nil => simp [isPre]
  | cons c a ih =>
    match b with
    | [] =>
      simp only [isPre]
      constructor
      · intro h
        exact absurd h (by simp)
      · rintro ⟨t, ht⟩
        simp at ht
    | d :: b =>
      simp only [isPre, Bool.and_eq_true, beq_iff_eq, ih]
      constructor
      · rintro ⟨rfl, t, rfl⟩
        exact ⟨t, rfl⟩
      · rintro ⟨t, ht⟩
        simp at ht
        exact ⟨ht.1.symm, t, ht.2⟩

theorem mem_of_endsL {a s : List Char} (h : endsL a s = true) {c : Char} (hc : c ∈ a) :
    c ∈ s := by
  unfold endsL at h
  rw [isPre_iff_append] at h
  obtain ⟨t, ht⟩ := h
  have : s = t.reverse ++ a := by
    have := congrArg List.reverse ht
    simpa using this
  rw [this]
  exact List.mem_append_right _ hc

/-! ## C1 -/

/-- C1: the three per-commit counters do **not** return the number of matching
lines.  `split("\n")` on grep output always ends with an empty fragment which
is never popped (unlike in `determine_commit_and_date_list`), so each counter
returns (matching lines) + 1; in particular, on the "no matches found" exit
status 1 with empty stdout they return 1, not the 0 the specification
requires. -/
theorem c1_counts_are_off_by_one :
    count_fixmes_here ⟨1, []⟩ = some 1 ∧
    count_deprecated_strings_here ⟨1, []⟩ = some 1 ∧
    count_deprecated_files_here ⟨1, []⟩ = some 1 ∧
    count_fixmes_here ⟨0, grepStdout ["x FIXME".toList, "y TODO".toList]⟩ = some 3 ∧
    (∀ ls : List (List Char), (∀ l ∈ ls, '\n' ∉ l) →
      count_fixmes_here ⟨0, grepStdout ls⟩ = some (ls.length + 1)) := by
  refine ⟨by decide, by decide, by decide, by decide, ?_⟩
  intro ls h
  simp [count_fixmes_here, pySplitNl_grepStdout ls h]

/-- C1 witness: the universally quantified part of `c1_counts_are_off_by_one`
applied to a concrete two-line grep output. -/
theorem c1_counts_are_off_by_one_witness :
    count_fixmes_here ⟨0, grepStdout [['a'], ['b']]⟩ = some (2 + 1) :=
  c1_counts_are_off_by_one.2.2.2.2 [['a'], ['b']] (by decide)

/-! ## C3 -/

/-- What `save_cache` durably does, from the source: `open(FILENAME_CACHE, "w")`
truncates the live file in place, then the serialization is written.  There is
no write-to-temporary/rename step. -/
theorem c3_amended_flush_truncates_in_place :
    ∀ (content : List Char) (cache : Cache),
      save_cache cache = [.openTrunc, .writeAll (serializeCache cache)] ∧
      applyFsOps content (save_cache cache) = serializeCache cache ∧
      fileAfterCrash content cache 0 = content ∧
      fileAfterCrash content cache 1 = [] := by
  intro content cache
  refine ⟨rfl, ?_, rfl, ?_⟩ <;>
    simp [applyFsOps, applyFsOp, save_cache, fileAfterCrash]

def cacheA : Cache := [("a", (1, 2, 3))]

def cacheB : Cache := [("a", (1, 2, 3)), ("b", (4, 5, 6))]

/-- C3 counterexample: start from a durable file holding the last completed
flush (of `cacheA`) and kill the process after `save_cache(cacheB)` has opened
the file with mode `"w"` but before `json.dump` ran: the durable file is now
empty, which is the state of no completed flush (every serialized cache is
nonempty — an empty mapping serializes to `"{}"`). -/
theorem c3_counterexample :
    fileAfterCrash (serializeCache cacheA) cacheB 1 = [] ∧
    serializeCache cacheA ≠ [] ∧ serializeCache cacheB ≠ [] ∧
    (∀ cache : Cache, serializeCache cache ≠ []) := by
  refine ⟨by decide, by decide, by decide, ?_⟩
  intro cache
  unfold serializeCache
  match sortByKey cache with
  | [] => simp
  | e :: es => simp

/-! ## C8 -/

/-- C8: per scanned line, the line-count metric increments exactly when the
stripped, upper-cased line is nonempty and does not start with `//`, and the
pending-work metric increments once per (non-overlapping) occurrence of
either keyword in that folded line; `"// TODO: fix this"` contributes `(1, 0)`
and a line containing both keywords contributes 2. -/
theorem c8_line_scan_semantics :
    (∀ line : List Char,
      (scanLine line).1 =
        countOcc kwFixme (pyUpper (pyStrip line)) + countOcc kwTodo (pyUpper (pyStrip line)) ∧
      ((scanLine line).2 = 1 ↔
        pyUpper (pyStrip line) ≠ [] ∧ isPre slashSlash (pyUpper (pyStrip line)) = false) ∧
      ((scanLine line).2 = 0 ∨ (scanLine line).2 = 1)) ∧
    scanLine "// TODO: fix this".toList = (1, 0) ∧
    scanLine "uses FIXME and TODO".toList = (2, 1) ∧
    scanFile ["// TODO: fix this".toList] = (1, 0) := by
  refine ⟨?_, by decide, by decide, by decide⟩
  intro line
  refine ⟨rfl, ?_, ?_⟩
  · simp only [scanLine]
    split
    · rename_i h
      simp only [true_iff]
      exact ⟨h.1, by simpa using h.2⟩
    · rename_i h
      simp only [not_and_or] at h
      constructor
      · intro e
        exact absurd e (by simp)
      · rintro ⟨h1, h2⟩
        rcases h with h | h
        · exact absurd h1 (by simpa using h)
        · exact absurd h2 (by simpa using h)
  · simp only [scanLine]
    split <;> simp

/-! ## C10 -/

/-- C10: because the configured entries for the last two kinds are the literal
strings `"*.txt"` and `"*.cmake"` and matching is `str.endswith`, an ordinary
file name (one not containing `'*'`) ending in `".txt"` or `".cmake"` and
matching none of the six real extensions passes no filter: the walk skips it
entirely, so it contributes nothing to any node's metrics nor to the ratio
list. -/
theorem c10_txt_cmake_never_scanned :
    ∀ name : String,
      (endsL ".txt".toList name.toList = true ∨ endsL ".cmake".toList name.toList = true) →
      '*' ∉ name.toList →
      (∀ ext ∈ [".h", ".c", ".cpp", ".html", ".js", ".sh"],
        endsL ext.toList name.toList = false) →
      matchesExt name = false ∧
      (∀ (st : WalkSt) (p : List String) (content : Option (List (List Char))),
        fileStep st p name content = st) ∧
      (∀ (p : List String) (content : Option (List (List Char))),
        fileOps p name content = [] ∧ fileRatio p name content = []) := by
  intro name _ hstar hexts
  have star : ∀ pat : String, '*' ∈ pat.toList → endsL pat.toList name.toList = false := by
    intro pat hp
    cases h : endsL pat.toList name.toList
    · rfl
    · exact absurd (mem_of_endsL h hp) hstar
  have hm : matchesExt name = false := by
    simp only [matchesExt, extList, List.any_eq_false]
    intro ext hext
    simp only [List.mem_cons, List.not_mem_nil, or_false] at hext
    rcases hext with rfl | rfl | rfl | rfl | rfl | rfl | rfl | rfl
    · simpa using hexts ".h" (by simp)
    · simpa using hexts ".c" (by simp)
    · simpa using hexts ".cpp" (by simp)
    · simpa using hexts ".html" (by simp)
    · simpa using hexts ".js" (by simp)
    · simpa using hexts ".sh" (by simp)
    · simpa using star "*.txt" (by decide)
    · simpa using star "*.cmake" (by decide)
  refine ⟨hm, ?_, ?_⟩
  · intro st p content
    simp [fileStep, hm]
  · intro p content
    constructor <;> simp [fileOps, fileRatio, hm]

/-- C10 witness at the name `"CMakeLists.txt"`. -/
theorem c10_txt_cmake_never_scanned_witness :
    matchesExt "CMakeLists.txt" = false ∧
    (∀ (st : WalkSt) (p : List String) (content : Option (List (List Char))),
      fileStep st p "CMakeLists.txt" content = st) ∧
    (∀ (p : List String) (content : Option (List (List Char))),
      fileOps p "CMakeLists.txt" content = [] ∧ fileRatio p "CMakeLists.txt" content = []) :=
  c10_txt_cmake_never_scanned "CMakeLists.txt" (Or.inl (by decide)) (by decide) (by decide)

/-! ## C6 -/

theorem hasKey_iff_getKey (cache : Cache) (commit : String) :
    hasKey cache commit = true ↔ ∃ v, getKey cache commit = some v := by
  induction cache with
  | nil => simp [hasKey, getKey]
  | cons e es ih =>
    by_cases h : e.1 = commit
    · simp [hasKey, getKey, List.find?, h]
    · simp only [hasKey, List.any_cons, decide_eq_true_eq, h, false_or, Bool.or_eq_true]
      rw [← hasKey]
      rw [ih]
      simp [getKey, List.find?, h, getKey] at *

/-- C6: a cache hit returns the stored triple and does nothing else — the
cache value is returned unchanged and the effect trace is empty (no checkout,
no grep, no save); consequently a run over commits that are all cached
performs no side effect beyond the final unconditional save and leaves the
cache as it was. -/
theorem c6_hit_has_no_side_effect :
    (∀ (commit : String) (date : Int) (cache : Cache) (w : World) (v : Nat × Nat × Nat),
      getKey cache commit = some v →
      lookup_commit commit date cache w =
        some ⟨cache, ⟨commit, date, v.1, v.2.1, v.2.2⟩, []⟩) ∧
    (∀ (cs : List (String × Int × World)) (cache : Cache),
      (∀ e ∈ cs, hasKey cache e.1 = true) →
      ∃ rows, runCommits cache cs = some (cache, rows, [])) := by
  constructor
  · intro commit date cache w v h
    simp [lookup_commit, h]
  · intro cs
    induction cs with
    | nil => exact fun cache _ => ⟨[], rfl⟩
    | cons e rest ih =>
      intro cache h
      obtain ⟨v, hv⟩ := (hasKey_iff_getKey cache e.1).1 (h e (List.mem_cons_self e rest))
      obtain ⟨rows, hrows⟩ := ih cache (fun x hx => h x (List.mem_cons_of_mem _ hx))
      refine ⟨⟨e.1, e.2.1, v.1, v.2.1, v.2.2⟩ :: rows, ?_⟩
      show runCommits cache ((e.1, e.2.1, e.2.2) :: rest) = _
      simp [runCommits, lookup_commit, hv, hrows]

def worldOk : World := ⟨true, ⟨1, []⟩, ⟨1, []⟩, ⟨1, []⟩⟩

/-- C6 witness: a concrete hit. -/
theorem c6_hit_has_no_side_effect_witness :
    lookup_commit "abc" 7 [("abc", (4, 5, 6))] worldOk =
      some ⟨[("abc", (4, 5, 6))], ⟨"abc", 7, 4, 5, 6⟩, []⟩ :=
  c6_hit_has_no_side_effect.1 "abc" 7 [("abc", (4, 5, 6))] worldOk (4, 5, 6) (by decide)

/-! ## C4 -/

/-- C4: on a cache miss, `lookup_commit` either aborts with the cache
untouched — when the checkout fails or one of the three counters hits a bad
grep exit status — or stores the complete freshly computed triple in one
assignment; no partial triple and no default triple can ever be recorded. -/
theorem c4_miss_is_all_or_nothing :
    ∀ (commit : String) (date : Int) (cache : Cache) (w : World),
      getKey cache commit = none →
      (lookup_commit commit date cache w = none ∧
        (w.checkoutOk = false ∨ count_fixmes_here w.fixmesRes = none ∨
          count_deprecated_strings_here w.depStrRes = none ∨
          count_deprecated_files_here w.depFilesRes = none)) ∨
      (∃ f ds df,
        w.checkoutOk = true ∧
        count_fixmes_here w.fixmesRes = some f ∧
        count_deprecated_strings_here w.depStrRes = some ds ∧
        count_deprecated_files_here w.depFilesRes = some df ∧
        lookup_commit commit date cache w =
          some ⟨insertKey cache commit (f, ds, df), ⟨commit, date, f, ds, df⟩,
            [.checkout commit, .grepFixmes, .grepDepStr, .grepDepFiles] ++
              if (insertKey cache commit (f, ds, df)).length % SAVE_CACHE_INV_FREQ = 0
              then [Effect.saveCache] else []⟩) := by
  intro commit date cache w hmiss
  cases hco : w.checkoutOk
  · exact Or.inl ⟨by simp [lookup_commit, hmiss, hco], Or.inl rfl⟩
  · match hf : count_fixmes_here w.fixmesRes with
    | none =>
      exact Or.inl ⟨by simp [lookup_commit, hmiss, hco, hf], Or.inr (Or.inl rfl)⟩
    | some f =>
      match hds : count_deprecated_strings_here w.depStrRes with
      | none =>
        exact Or.inl ⟨by simp [lookup_commit, hmiss, hco, hf, hds], Or.inr (Or.inr (Or.inl rfl))⟩
      | some ds =>
        match hdf : count_deprecated_files_here w.depFilesRes with
        | none =>
          exact Or.inl
            ⟨by simp [lookup_commit, hmiss, hco, hf, hds, hdf], Or.inr (Or.inr (Or.inr rfl))⟩
        | some df =>
          refine Or.inr ⟨f, ds, df, rfl, rfl, rfl, rfl, ?_⟩
          simp [lookup_commit, hmiss, hco, hf, hds, hdf]

/-- C4 witness: a concrete miss with all three counters succeeding. -/
theorem c4_miss_is_all_or_nothing_witness :
    (lookup_commit "new" 3 [] worldOk = none ∧
      (worldOk.checkoutOk = false ∨ count_fixmes_here worldOk.fixmesRes = none ∨
        count_deprecated_strings_here worldOk.depStrRes = none ∨
        count_deprecated_files_here worldOk.depFilesRes = none)) ∨
    (∃ f ds df,
      worldOk.checkoutOk = true ∧
      count_fixmes_here worldOk.fixmesRes = some f ∧
      count_deprecated_strings_here worldOk.depStrRes = some ds ∧
      count_deprecated_files_here worldOk.depFilesRes = some df ∧
      lookup_commit "new" 3 [] worldOk =
        some ⟨insertKey [] "new" (f, ds, df), ⟨"new", 3, f, ds, df⟩,
          [.checkout "new", .grepFixmes, .grepDepStr, .grepDepFiles] ++
            if (insertKey [] "new" (f, ds, df)).length % SAVE_CACHE_INV_FREQ = 0
            then [Effect.saveCache] else []⟩) :=
  c4_miss_is_all_or_nothing "new" 3 [] worldOk (by decide)

/-! ## C5 -/

/-- 199 cache entries keyed `"0"` … `"198"`. -/
def bigCache : Cache := (List.range 199).map (fun i => (toString i, (0, 0, 0)))

/-- C5 counterexample: with 199 entries already cached, the very **first**
freshly computed entry triggers a flush (`len(cache)` reaches 200), although
the claim allows a flush only after every 200th newly computed entry
regardless of the cache's initial size. -/
theorem c5_counterexample :
    getKey bigCache "x" = none ∧
    (lookup_commit "x" 0 bigCache worldOk).map LookupOut.effs =
      some [.checkout "x", .grepFixmes, .grepDepStr, .grepDepFiles, .saveCache] := by
  constructor
  · decide
  · rfl

/-- C5 amended: within `lookup_commit`, the cache is flushed exactly when the
lookup was a miss and the **total** number of keys after the insertion is
divisible by `SAVE_CACHE_INV_FREQ = 200` (so a flush happens every 200
insertions, aligned to total cache size, not to the count of fresh entries);
and every completed run ends with one unconditional flush. -/
theorem c5_amended_flush_on_total_size :
    (∀ (commit : String) (date : Int) (cache : Cache) (w : World) (out : LookupOut),
      lookup_commit commit date cache w = some out →
      (Effect.saveCache ∈ out.effs ↔
        getKey cache commit = none ∧ out.cache.length % SAVE_CACHE_INV_FREQ = 0)) ∧
    (∀ (cache : Cache) (cs : List (String × Int × World)) r,
      runCachePhase cache cs = some r →
      r.2.2.getLast? = some Effect.saveCache) := by
  constructor
  · intro commit date cache w out h
    match hmiss : getKey cache commit with
    | some v =>
      simp only [lookup_commit, hmiss] at h
      cases h
      simp
    | none =>
      simp only [lookup_commit, hmiss] at h
      cases hco : w.checkoutOk <;> rw [hco] at h
      · simp at h
      · simp only [if_true] at h
        match hf : count_fixmes_here w.fixmesRes with
        | none => rw [hf] at h; cases h
        | some f =>
          rw [hf] at h
          match hds : count_deprecated_strings_here w.depStrRes with
          | none => rw [hds] at h; cases h
          | some ds =>
            rw [hds] at h
            match hdf : count_deprecated_files_here w.depFilesRes with
            | none => rw [hdf] at h; cases h
            | some df =>
              rw [hdf] at h
              cases h
              simp only [true_and]
              by_cases hlen :
                  (insertKey cache commit (f, ds, df)).length % SAVE_CACHE_INV_FREQ = 0 <;>
                simp [hlen]
  · intro cache cs r h
    simp only [runCachePhase, Option.map_eq_some'] at h
    obtain ⟨⟨cf, rows, effs⟩, _, rfl⟩ := h
    simp

/-- C5 amended witness: the flush criterion evaluated on the concrete
199-entry cache. -/
theorem c5_amended_flush_on_total_size_witness :
    Effect.saveCache ∈
        (LookupOut.mk (insertKey bigCache "x" (1, 1, 1)) ⟨"x", 0, 1, 1, 1⟩
          [.checkout "x", .grepFixmes, .grepDepStr, .grepDepFiles, .saveCache]).effs ↔
      getKey bigCache "x" = none ∧
        (insertKey bigCache "x" (1, 1, 1)).length % SAVE_CACHE_INV_FREQ = 0 :=
  c5_amended_flush_on_total_size.1 "x" 0 bigCache worldOk _ (by rfl)

/-! ## C9

The `ratios_list` appends performed by the walk depend only on each file's
path and content, never on the tree, so the final list equals the recursive
collection `ratiosDir` — established first, then characterized by membership
in terms of the file system. -/

theorem fileStep_ratios (st : WalkSt) (p : List String) (n : String)
    (c : Option (List (List Char))) :
    (fileStep st p n c).ratios = st.ratios ++ fileRatio p n c := by
  unfold fileStep fileRatio
  by_cases h1 : matchesExt n = false
  · simp [h1]
  · by_cases h2 : fullName (p ++ [n]) ∈ excludedFiles
    · simp [h1, h2]
    · cases c with
      | none => simp [h1, h2]
      | some lines =>
        by_cases h3 : hasBanned (p ++ [n]) = true
        · simp [h1, h2, h3]
        · by_cases h4 : (scanFile lines).1 ≠ 0 ∧ (scanFile lines).2 ≠ 0
          · simp [h1, h2, h3, h4]
          · simp [h1, h2, h3, h4]

theorem dirStep_ratios (st : WalkSt) (p : List String) (n : String) :
    (dirStep st p n).ratios = st.ratios := rfl

theorem filesFold_ratios (p : List String) (es : List Entry) :
    ∀ st : WalkSt,
      (es.foldl (fileEntryStep p) st).ratios = st.ratios ++ es.flatMap (entryFileRatio p) := by
  induction es with
  | nil => intro st; simp
  | cons e es ih =>
    intro st
    rw [List.foldl_cons, ih]
    cases e with
    | file n c => simp [fileEntryStep, entryFileRatio, fileStep_ratios]
    | dir n sub => simp [fileEntryStep, entryFileRatio]

theorem dirsFold_ratios (p : List String) (es : List Entry) :
    ∀ st : WalkSt, (es.foldl (dirEntryStep p) st).ratios = st.ratios := by
  induction es with
  | nil => intro st; rfl
  | cons e es ih =>
    intro st
    rw [List.foldl_cons, ih]
    cases e with
    | file n c => rfl
    | dir n sub => rfl

theorem ratiosSubs_nil (p : List String) : ratiosSubs p [] = [] := by
  simp [ratiosSubs]

theorem ratiosSubs_file (p : List String) (n : String) (c : Option (List (List Char)))
    (es : List Entry) : ratiosSubs p (.file n c :: es) = ratiosSubs p es := by
  simp [ratiosSubs]

theorem ratiosSubs_dir (p : List String) (n : String) (sub es : List Entry) :
    ratiosSubs p (.dir n sub :: es) = ratiosDir (p ++ [n]) sub ++ ratiosSubs p es := by
  simp [ratiosSubs]

theorem ratiosDir_eq (p : List String) (es : List Entry) :
    ratiosDir p es = ratiosSubs p es ++ es.flatMap (entryFileRatio p) := by
  simp [ratiosDir]

mutual

theorem walkSubs_ratios (st : WalkSt) (p : List String) (l : List Entry) :
    (walkSubs st p l).ratios = st.ratios ++ ratiosSubs p l := by
  match l with
  | [] => simp [walkSubs, ratiosSubs]
  | .file n c :: es =>
    rw [show walkSubs st p (.file n c :: es) = walkSubs st p es from by simp [walkSubs]]
    rw [walkSubs_ratios st p es]
    simp [ratiosSubs]
  | .dir n sub :: es =>
    rw [show walkSubs st p (.dir n sub :: es) = walkSubs (walkDir st (p ++ [n]) sub) p es
      from by simp [walkSubs]]
    rw [walkSubs_ratios (walkDir st (p ++ [n]) sub) p es, walkDir_ratios st (p ++ [n]) sub]
    simp [ratiosSubs]
termination_by (sizeOf l, 0)

theorem walkDir_ratios (st : WalkSt) (p : List String) (es : List Entry) :
    (walkDir st p es).ratios = st.ratios ++ ratiosDir p es := by
  rw [show walkDir st p es
      = es.foldl (dirEntryStep p) (es.foldl (fileEntryStep p) (walkSubs st p es))
    from by simp [walkDir]]
  rw [dirsFold_ratios, filesFold_ratios, walkSubs_ratios]
  simp [ratiosDir]
termination_by (sizeOf es, 1)

end

/-- `FileAt` only depends on which entries are in the top-level listing. -/
theorem FileAt.mono {es es' : List Entry} {path : List String}
    {c : Option (List (List Char))} (h : FileAt es path c)
    (sub : ∀ e ∈ es, e ∈ es') : FileAt es' path c := by
  cases h with
  | here hmem => exact .here (sub _ hmem)
  | there hmem hsub => exact .there (sub _ hmem) hsub

theorem ratiosDir_subset_ratiosSubs {n : String} {sub : List Entry} (p : List String)
    (l : List Entry) (hmem : Entry.dir n sub ∈ l) :
    ∀ x ∈ ratiosDir (p ++ [n]) sub, x ∈ ratiosSubs p l := by
  induction l with
  | nil => simp at hmem
  | cons e es ih =>
    intro x hx
    rcases List.mem_cons.1 hmem with he | he
    · subst he
      rw [ratiosSubs_dir]
      exact List.mem_append_left _ hx
    · cases e with
      | file m c =>
        rw [ratiosSubs_file]
        exact ih he x hx
      | dir m msub =>
        rw [ratiosSubs_dir]
        exact List.mem_append_right _ (ih he x hx)

/-- Backward direction: every file reachable in the tree contributes its
`fileRatio` rows to `ratiosDir`. -/
theorem fileAt_mem_ratiosDir {es : List Entry} {path : List String}
    {c : Option (List (List Char))} (h : FileAt es path c) :
    ∀ (p q : List String) (name : String), path = q ++ [name] →
      ∀ x ∈ fileRatio (p ++ q) name c, x ∈ ratiosDir p es := by
  induction h with
  | here hmem =>
    rename_i es1 n1 c1
    intro p q name hpath x hx
    match q with
    | _ :: _ :: _ => simp at hpath
    | [_] => simp at hpath
    | [] =>
      simp only [List.nil_append, List.cons.injEq, and_true] at hpath
      subst hpath
      rw [ratiosDir_eq]
      refine List.mem_append_right _ (List.mem_flatMap.2 ⟨Entry.file n1 c1, hmem, ?_⟩)
      simpa [entryFileRatio] using hx
  | there hmem hsub ih =>
    rename_i es1 n1 sub1 q1 c1
    intro p q name hpath x hx
    match q with
    | [] =>
      simp only [List.nil_append, List.cons.injEq] at hpath
      obtain ⟨he, hq⟩ := hpath
      subst hq
      cases hsub
    | a :: q₀ =>
      simp only [List.cons_append, List.cons.injEq] at hpath
      obtain ⟨he, hq⟩ := hpath
      have hx' : x ∈ fileRatio ((p ++ [n1]) ++ q₀) name c1 := by
        rw [he]
        simpa [List.append_assoc] using hx
      have hmem' := ih (p ++ [n1]) q₀ name hq x hx'
      rw [ratiosDir_eq]
      exact List.mem_append_left _ (ratiosDir_subset_ratiosSubs p es1 hmem x hmem')

mutual

/-- Forward direction (subs part). -/
theorem mem_ratiosSubs_cases (p : List String) (l : List Entry)
    (x : Nat × Nat × String) (hx : x ∈ ratiosSubs p l) :
    ∃ q name c, FileAt l (q ++ [name]) c ∧ x ∈ fileRatio (p ++ q) name c := by
  match l with
  | [] =>
    rw [ratiosSubs_nil] at hx
    simp at hx
  | .file n c :: es =>
    rw [ratiosSubs_file] at hx
    obtain ⟨q, name, c', hfa, hfr⟩ := mem_ratiosSubs_cases p es x hx
    exact ⟨q, name, c', hfa.mono (fun e he => List.mem_cons_of_mem _ he), hfr⟩
  | .dir n sub :: es =>
    rw [ratiosSubs_dir] at hx
    rcases List.mem_append.1 hx with h | h
    · obtain ⟨q, name, c', hfa, hfr⟩ := mem_ratiosDir_cases (p ++ [n]) sub x h
      refine ⟨n :: q, name, c', .there (List.mem_cons_self _ _) hfa, ?_⟩
      simpa [List.append_assoc] using hfr
    · obtain ⟨q, name, c', hfa, hfr⟩ := mem_ratiosSubs_cases p es x h
      exact ⟨q, name, c', hfa.mono (fun e he => List.mem_cons_of_mem _ he), hfr⟩
termination_by (sizeOf l, 0)

/-- Forward direction: every `ratiosDir` row comes from a reachable file. -/
theorem mem_ratiosDir_cases (p : List String) (es : List Entry)
    (x : Nat × Nat × String) (hx : x ∈ ratiosDir p es) :
    ∃ q name c, FileAt es (q ++ [name]) c ∧ x ∈ fileRatio (p ++ q) name c := by
  rw [ratiosDir_eq] at hx
  rcases List.mem_append.1 hx with h | h
  · exact mem_ratiosSubs_cases p es x h
  · obtain ⟨e, he, hxe⟩ := List.mem_flatMap.1 h
    cases e with
    | file n c =>
      exact ⟨[], n, c, .here he, by simpa [entryFileRatio] using hxe⟩
    | dir n sub => simp [entryFileRatio] at hxe
termination_by (sizeOf es, 1)

end

/-- C9: the walk's final `ratios_list` is exactly `ratiosDir`; a row appears
iff some reachable file has it as its `fileRatio` row; for a decoded file the
row exists iff the file passes the extension, fixture, and excluded-directory
filters and both its counts are nonzero, and then it consists of the two
counts and the path; `ratio.csv` carries the header `TODO,LOC,TODO/LOC,FILE`
and formats the ratio of each row as a two-decimal percentage, `"25.00%"` for
3 pending-work markers over 12 counted lines. -/
theorem c9_ratio_report :
    (∀ fs : List Entry, (flameWalk fs).ratios = ratiosDir [] fs) ∧
    (∀ (fs : List Entry) (x : Nat × Nat × String),
      x ∈ (flameWalk fs).ratios ↔
        ∃ q name c, FileAt fs (q ++ [name]) c ∧ x ∈ fileRatio q name c) ∧
    (∀ (p : List String) (name : String) (lines : List (List Char))
        (x : Nat × Nat × String),
      x ∈ fileRatio p name (some lines) ↔
        (matchesExt name = true ∧ fullName (p ++ [name]) ∉ excludedFiles ∧
          hasBanned (p ++ [name]) = false ∧
          (scanFile lines).1 ≠ 0 ∧ (scanFile lines).2 ≠ 0 ∧
          x = ((scanFile lines).1, (scanFile lines).2,
            String.intercalate "/" (p ++ [name])))) ∧
    (∀ entries, ratioReport entries = "TODO,LOC,TODO/LOC,FILE".toList :: entries.map ratioLine) ∧
    formatPercent 3 12 = "25.00%".toList ∧
    ratioLine (3, 12, "AK/Format.h") = "3,12,25.00%,AK/Format.h".toList := by
  have hwalk : ∀ fs : List Entry, (flameWalk fs).ratios = ratiosDir [] fs := by
    intro fs
    unfold flameWalk
    rw [walkDir_ratios]
    rfl
  refine ⟨hwalk, ?_, ?_, fun _ => rfl, by decide, by decide⟩
  · intro fs x
    rw [hwalk]
    constructor
    · intro h
      obtain ⟨q, name, c, hfa, hfr⟩ := mem_ratiosDir_cases [] fs x h
      exact ⟨q, name, c, hfa, by simpa using hfr⟩
    · rintro ⟨q, name, c, hfa, hfr⟩
      exact fileAt_mem_ratiosDir hfa [] q name rfl x (by simpa using hfr)
  · intro p name lines x
    unfold fileRatio
    cases hm : matchesExt name with
    | false => simp [hm]
    | true =>
      by_cases h2 : fullName (p ++ [name]) ∈ excludedFiles
      · simp [hm, h2]
      · cases hb : hasBanned (p ++ [name]) with
        | true => simp [hm, h2, hb]
        | false =>
          by_cases h4 : (scanFile lines).1 ≠ 0 ∧ (scanFile lines).2 ≠ 0
          · simp [hm, h2, hb, h4.1, h4.2]
          · rcases not_and_or.1 h4 with h | h
            · have h0 : (scanFile lines).1 = 0 := by simpa using h
              simp [hm, h2, hb, h0]
            · have h0 : (scanFile lines).2 = 0 := by simpa using h
              simp [hm, h2, hb, h0]

/-! ## C7 -/

theorem setValue_eq (calculate : Node → Nat) (n : Node) :
    setValue calculate n = ⟨n.name, calculate n, setKids calculate n.children⟩ := by
  simp [setValue]

theorem setKids_eq_filter (calculate : Node → Nat) (l : List Node) :
    setKids calculate l = (l.map (setValue calculate)).filter keepOut := by
  induction l with
  | nil => simp [setKids]
  | cons x xs ih =>
    rw [show setKids calculate (x :: xs)
        = if keepOut (setValue calculate x) = true
          then setValue calculate x :: setKids calculate xs
          else setKids calculate xs
      from by simp [setKids]]
    rw [List.map_cons, List.filter_cons, ih]

theorem keepOut_iff (c : OutNode) :
    keepOut c = true ↔ ¬ (c.value = 0 ∧ c.children = []) := by
  unfold keepOut
  rcases c with ⟨name, value, children⟩
  cases children <;> simp [List.isEmpty]

theorem mem_descs (n d : Node) :
    d ∈ descs n ↔ ∃ x ∈ n.children, d = x ∨ d ∈ descs x := by
  conv_lhs => rw [descs]
  simp only [List.mem_flatMap, List.mem_attach, true_and, List.mem_cons, Subtype.exists]
  constructor
  · rintro ⟨x, hx, h⟩
    exact ⟨x, hx, by simpa using h⟩
  · rintro ⟨x, hx, h⟩
    exact ⟨x, hx, by simpa using h⟩

theorem setKids_ne_nil_iff (calculate : Node → Nat) (l : List Node) :
    setKids calculate l ≠ [] ↔ ∃ x ∈ l, keepOut (setValue calculate x) = true := by
  rw [setKids_eq_filter]
  constructor
  · intro h
    match hm : (l.map (setValue calculate)).filter keepOut with
    | [] => exact absurd hm h
    | c :: cs =>
      have hc : c ∈ (l.map (setValue calculate)).filter keepOut := by
        rw [hm]; exact List.mem_cons_self _ _
      obtain ⟨hcm, hck⟩ := List.mem_filter.1 hc
      obtain ⟨x, hx, rfl⟩ := List.mem_map.1 hcm
      exact ⟨x, hx, hck⟩
  · rintro ⟨x, hx, hk⟩
    intro hnil
    have : setValue calculate x ∈ (l.map (setValue calculate)).filter keepOut :=
      List.mem_filter.2 ⟨List.mem_map_of_mem _ hx, hk⟩
    rw [hnil] at this
    simp at this

/-- A retained (non-pruned) child exists below `n` exactly when some strict
descendant of `n` has a nonzero metric. -/
theorem setValue_children_ne_nil (calculate : Node → Nat) (n : Node) :
    (setValue calculate n).children ≠ [] ↔ ∃ d ∈ descs n, calculate d ≠ 0 := by
  rw [setValue_eq]
  show setKids calculate n.children ≠ [] ↔ _
  rw [setKids_ne_nil_iff]
  constructor
  · rintro ⟨x, hx, hk⟩
    rw [keepOut_iff] at hk
    rw [not_and_or] at hk
    rcases hk with hk | hk
    · refine ⟨x, (mem_descs n x).2 ⟨x, hx, Or.inl rfl⟩, ?_⟩
      simpa [setValue_eq] using hk
    · obtain ⟨d, hd, hdc⟩ := (setValue_children_ne_nil calculate x).1 hk
      exact ⟨d, (mem_descs n d).2 ⟨x, hx, Or.inr hd⟩, hdc⟩
  · rintro ⟨d, hd, hdc⟩
    obtain ⟨x, hx, hcase⟩ := (mem_descs n d).1 hd
    refine ⟨x, hx, (keepOut_iff _).2 ?_⟩
    rw [not_and_or]
    rcases hcase with rfl | hdx
    · exact Or.inl (by simpa [setValue_eq] using hdc)
    · exact Or.inr ((setValue_children_ne_nil calculate x).2 ⟨d, hdx, hdc⟩)
termination_by sizeOf n
decreasing_by
  all_goals have h := List.sizeOf_lt_of_mem hx
  all_goals cases n
  all_goals simp at h ⊢
  all_goals omega

/-- C7: in both serialized projections, a node is omitted from its parent's
children listing iff its value is zero and it has no retained children; the
pruned child list is exactly the filtered recursion; `set_value` keeps a
zero-valued node whenever a strict descendant has a nonzero metric (third
part), and always returns the node it is applied to — in particular the root
appears in the output regardless of its value. -/
theorem c7_pruning_rule :
    (∀ (calculate : Node → Nat) (n : Node),
      (setValue calculate n).name = n.name ∧
      (setValue calculate n).value = calculate n ∧
      (setValue calculate n).children
        = (n.children.map (setValue calculate)).filter keepOut) ∧
    (∀ (calculate : Node → Nat) (n x : Node), x ∈ n.children →
      (setValue calculate x ∈ (setValue calculate n).children ↔
        ¬ ((setValue calculate x).value = 0 ∧ (setValue calculate x).children = []))) ∧
    (∀ (calculate : Node → Nat) (x : Node),
      ((setValue calculate x).children ≠ [] ↔ ∃ d ∈ descs x, calculate d ≠ 0)) := by
  refine ⟨?_, ?_, setValue_children_ne_nil⟩
  · intro calculate n
    rw [setValue_eq, setKids_eq_filter]
    exact ⟨rfl, rfl, rfl⟩
  · intro calculate n x hx
    have hch : (setValue calculate n).children
        = (n.children.map (setValue calculate)).filter keepOut := by
      rw [setValue_eq, setKids_eq_filter]
    rw [hch, List.mem_filter, ← keepOut_iff]
    have hmem : setValue calculate x ∈ n.children.map (setValue calculate) :=
      List.mem_map_of_mem _ hx
    constructor
    · exact fun h => h.2
    · exact fun h => ⟨hmem, h⟩

def exDir : Node := ⟨"Kernel", [⟨"boot.cpp", [], 0, 3⟩], 0, 3⟩

/-- C7 witness: the membership criterion applied to a concrete parent and
child. -/
theorem c7_pruning_rule_witness :
    setValue Node.todos ⟨"boot.cpp", [], 0, 3⟩ ∈ (setValue Node.todos exDir).children ↔
      ¬ ((setValue Node.todos ⟨"boot.cpp", [], 0, 3⟩).value = 0 ∧
        (setValue Node.todos ⟨"boot.cpp", [], 0, 3⟩).children = []) :=
  c7_pruning_rule.2.1 Node.todos exDir ⟨"boot.cpp", [], 0, 3⟩ (by simp [exDir])

/-! ## C2: frame lemmas for `get_node` updates

Every `appF` function preserves a node's name and children, so a `goNode`
application can disturb the tree only by creating missing nodes along its own
path and rewriting the counters of its target node.  The three frame lemmas
make that precise for a second observed path that diverges from the
operation's path, strictly extends it, or equals it. -/

theorem appF_name (o : OpF) (n : Node) : (appF o n).name = n.name := by
  cases o <;> rfl

theorem appF_children (o : OpF) (n : Node) : (appF o n).children = n.children := by
  cases o <;> rfl

theorem goNode_name (f : Node → Node) (hf : ∀ m, (f m).name = m.name) :
    ∀ (r : List String) (n : Node), (goNode f r n).name = n.name := by
  intro r n
  cases r with
  | nil => exact hf n
  | cons c rest =>
    unfold goNode
    split <;> rfl

/-- The first existing child with name `c`, or the fresh node `get_node` would
create for it. -/
def fcOr (cs : List Node) (c : String) : Node :=
  match findChild cs c with
  | some x => x
  | none => ⟨c, [], 0, 0⟩

/-- The node a `get_node(path)` call returns: the existing node at the path,
or the leaf of the chain of fresh nodes it creates. -/
def fetchPath (t : Node) : List String → Node
  | [] => t
  | c :: rest => fetchPath (fcOr t.children c) rest

theorem findChild_nil (c : String) : findChild [] c = none := rfl

theorem findChild_cons (x : Node) (xs : List Node) (c : String) :
    findChild (x :: xs) c = if x.name = c then some x else findChild xs c := rfl

theorem setChild_nil (g : Node → Node) (c : String) :
    setChild g c [] = [g ⟨c, [], 0, 0⟩] := rfl

theorem setChild_cons (g : Node → Node) (c : String) (x : Node) (xs : List Node) :
    setChild g c (x :: xs) = if x.name = c then g x :: xs else x :: setChild g c xs := rfl

theorem findChild_setChild_other (g : Node → Node) (hg : ∀ m, (g m).name = m.name)
    (c a : String) (hne : a ≠ c) :
    ∀ cs, findChild (setChild g c cs) a = findChild cs a := by
  intro cs
  induction cs with
  | nil =>
    rw [setChild_nil, findChild_cons, hg ⟨c, [], 0, 0⟩]
    show (if c = a then _ else findChild [] a) = _
    rw [if_neg (fun e => hne e.symm)]
  | cons x xs ih =>
    rw [setChild_cons]
    by_cases hx : x.name = c
    · rw [if_pos hx, findChild_cons, findChild_cons]
      have hgx : (g x).name = c := by rw [hg x, hx]
      rw [hgx, hx, if_neg (fun e => hne e.symm), if_neg (fun e => hne e.symm)]
    · rw [if_neg hx, findChild_cons, findChild_cons]
      by_cases hxa : x.name = a
      · rw [if_pos hxa, if_pos hxa]
      · rw [if_neg hxa, if_neg hxa, ih]

theorem findChild_setChild_self (g : Node → Node) (hg : ∀ m, (g m).name = m.name)
    (c : String) : ∀ cs, findChild (setChild g c cs) c = some (g (fcOr cs c)) := by
  intro cs
  induction cs with
  | nil =>
    rw [setChild_nil, findChild_cons, hg ⟨c, [], 0, 0⟩, if_pos rfl]
    rw [show fcOr [] c = ⟨c, [], 0, 0⟩ from rfl]
  | cons x xs ih =>
    rw [setChild_cons]
    by_cases hx : x.name = c
    · rw [if_pos hx, findChild_cons]
      have hgx : (g x).name = c := by rw [hg x, hx]
      rw [hgx, if_pos rfl,
        show fcOr (x :: xs) c = x from by unfold fcOr; rw [findChild_cons, if_pos hx]]
    · rw [if_neg hx, findChild_cons, if_neg hx, ih,
        show fcOr (x :: xs) c = fcOr xs c from by unfold fcOr; rw [findChild_cons, if_neg hx]]

theorem findPath_leaf_cons (nm : String) (a b : Nat) (x : String) (xs : List String) :
    findPath ⟨nm, [], a, b⟩ (x :: xs) = none := by
  simp [findPath, findChild]

/-- Frame: the observed path diverges from the operation's path. -/
theorem findPath_goNode_diverge (f : Node → Node) (hf : ∀ m, (f m).name = m.name) :
    ∀ (pre : List String) (a b : String) (r₂ q₂ : List String) (t : Node), a ≠ b →
      findPath (goNode f (pre ++ a :: r₂) t) (pre ++ b :: q₂)
        = findPath t (pre ++ b :: q₂) := by
  intro pre
  induction pre with
  | nil =>
    intro a b r₂ q₂ t hab
    simp only [List.nil_append]
    unfold goNode
    split
    · rfl
    · show findPath ⟨t.name, setChild (fun m => goNode f r₂ m) a t.children, t.todos, t.locs⟩
          (b :: q₂) = _
      unfold findPath
      rw [findChild_setChild_other _ (goNode_name f hf r₂) a b (fun e => hab e.symm)]
  | cons c pre ih =>
    intro a b r₂ q₂ t hab
    simp only [List.cons_append]
    unfold goNode
    split
    · rfl
    · show findPath ⟨t.name, setChild (fun m => goNode f (pre ++ a :: r₂) m) c t.children,
          t.todos, t.locs⟩ (c :: (pre ++ b :: q₂)) = _
      unfold findPath
      rw [findChild_setChild_self _ (goNode_name f hf _) c]
      show findPath (goNode f (pre ++ a :: r₂) (fcOr t.children c)) (pre ++ b :: q₂) = _
      rw [ih a b r₂ q₂ (fcOr t.children c) hab]
      unfold fcOr
      match hfc : findChild t.children c with
      | some x => rfl
      | none =>
        match pre with
        | [] => exact findPath_leaf_cons c 0 0 b q₂
        | d :: pre' => exact findPath_leaf_cons c 0 0 d (pre' ++ b :: q₂)

/-- Frame: the observed path strictly extends the operation's path. -/
theorem findPath_goNode_deeper (f : Node → Node) (hfn : ∀ m, (f m).name = m.name)
    (hfc : ∀ m, (f m).children = m.children) :
    ∀ (r : List String) (b : String) (q₂ : List String) (t : Node),
      findPath (goNode f r t) (r ++ b :: q₂) = findPath t (r ++ b :: q₂) := by
  intro r
  induction r with
  | nil =>
    intro b q₂ t
    simp only [List.nil_append]
    show findPath (f t) (b :: q₂) = _
    unfold findPath
    rw [hfc t]
  | cons c r ih =>
    intro b q₂ t
    simp only [List.cons_append]
    unfold goNode
    split
    · rfl
    · show findPath ⟨t.name, setChild (fun m => goNode f r m) c t.children, t.todos, t.locs⟩
          (c :: (r ++ b :: q₂)) = _
      unfold findPath
      rw [findChild_setChild_self _ (goNode_name f hfn _) c]
      show findPath (goNode f r (fcOr t.children c)) (r ++ b :: q₂) = _
      rw [ih b q₂ (fcOr t.children c)]
      unfold fcOr
      match hfc' : findChild t.children c with
      | some x => rfl
      | none =>
        match r with
        | [] => exact findPath_leaf_cons c 0 0 b q₂
        | d :: r' => exact findPath_leaf_cons c 0 0 d (r' ++ b :: q₂)

/-- The operation's own path: the target node exists afterwards and carries
the update applied to the node found there (or to the fresh chain's leaf). -/
theorem findPath_goNode_self (f : Node → Node) (hfn : ∀ m, (f m).name = m.name) :
    ∀ (r : List String) (t : Node), Allowed r →
      findPath (goNode f r t) r = some (f (fetchPath t r)) := by
  intro r
  induction r with
  | nil => intro t _; rfl
  | cons c r ih =>
    intro t hallow
    have hc : banned c = false := hallow c (List.mem_cons_self c r)
    unfold goNode
    rw [if_neg (by rw [hc]; exact fun e => nomatch e)]
    show findPath ⟨t.name, setChild (fun m => goNode f r m) c t.children, t.todos, t.locs⟩
        (c :: r) = _
    unfold findPath
    rw [findChild_setChild_self _ (goNode_name f hfn _) c]
    show findPath (goNode f r (fcOr t.children c)) r = _
    rw [ih (fcOr t.children c) (fun x hx => hallow x (List.mem_cons_of_mem _ hx))]
    rfl

/-! ### The walk's tree equals the flat operation sequence applied in order -/

theorem applyOps_append (t : Node) (a b : List Op) :
    applyOps t (a ++ b) = applyOps (applyOps t a) b :=
  List.foldl_append _ _ _ _

theorem setChild_congr (g g' : Node → Node) (h : ∀ m, g m = g' m) (c : String) :
    ∀ cs, setChild g c cs = setChild g' c cs := by
  intro cs
  induction cs with
  | nil => rw [setChild_nil, setChild_nil, h]
  | cons x xs ih =>
    rw [setChild_cons, setChild_cons, h x, ih]

theorem goNode_congr (f f' : Node → Node) (h : ∀ m, f m = f' m) :
    ∀ (r : List String) (t : Node), goNode f r t = goNode f' r t := by
  intro r
  induction r with
  | nil => exact h
  | cons c rest ih =>
    intro t
    unfold goNode
    split
    · rfl
    · rw [setChild_congr _ _ (fun m => ih m) c]

theorem fileStep_tree (st : WalkSt) (p : List String) (n : String)
    (c : Option (List (List Char))) :
    (fileStep st p n c).tree = applyOps st.tree (fileOps p n c) := by
  unfold fileStep fileOps
  by_cases h1 : matchesExt n = false
  · simp [h1, applyOps]
  · by_cases h2 : fullName (p ++ [n]) ∈ excludedFiles
    · simp [h1, h2, applyOps]
    · cases c with
      | none =>
        simp only [h1, if_false, if_neg h2]
        show goNode id (p ++ [n]) st.tree = applyOps st.tree [(p ++ [n], .idf)]
        show _ = goNode (appF .idf) (p ++ [n]) st.tree
        exact goNode_congr _ _ (fun m => rfl) _ _
      | some lines =>
        simp only [h1, if_false, if_neg h2]
        have htree : ∀ w : WalkSt,
            w.tree = goNode (fun nd => ⟨nd.name, nd.children, (scanFile lines).1,
              (scanFile lines).2⟩) (p ++ [n]) st.tree →
            w.tree = applyOps st.tree [(p ++ [n], .setv (scanFile lines).1 (scanFile lines).2)] := by
          intro w hw
          rw [hw]
          show _ = goNode (appF (.setv (scanFile lines).1 (scanFile lines).2)) (p ++ [n]) st.tree
          exact goNode_congr _ _ (fun m => rfl) _ _
        by_cases h3 : hasBanned (p ++ [n]) = true
        · rw [if_pos h3]
          exact htree _ rfl
        · rw [if_neg h3]
          by_cases h4 : (scanFile lines).1 ≠ 0 ∧ (scanFile lines).2 ≠ 0
          · rw [if_pos h4]
            exact htree _ rfl
          · rw [if_neg h4]
            exact htree _ rfl

theorem dirStep_tree (st : WalkSt) (p : List String) (n : String) :
    (dirStep st p n).tree = applyOp st.tree (p ++ [n], OpF.agg) := by
  show goNode _ (p ++ [n]) st.tree = goNode (appF .agg) (p ++ [n]) st.tree
  exact goNode_congr _ _ (fun m => rfl) _ _

theorem filesFold_tree (p : List String) (es : List Entry) :
    ∀ st : WalkSt,
      (es.foldl (fileEntryStep p) st).tree
        = applyOps st.tree (es.flatMap (entryFileOps p)) := by
  induction es with
  | nil => intro st; simp [applyOps]
  | cons e es ih =>
    intro st
    rw [List.foldl_cons, ih, List.flatMap_cons, applyOps_append]
    cases e with
    | file n c =>
      show applyOps (fileStep st p n c).tree _ = _
      rw [fileStep_tree]
      rfl
    | dir n sub => rfl

theorem dirsFold_tree (p : List String) (es : List Entry) :
    ∀ st : WalkSt,
      (es.foldl (dirEntryStep p) st).tree
        = applyOps st.tree (es.flatMap (entryAggOps p)) := by
  induction es with
  | nil => intro st; simp [applyOps]
  | cons e es ih =>
    intro st
    rw [List.foldl_cons, ih, List.flatMap_cons, applyOps_append]
    cases e with
    | file n c => rfl
    | dir n sub =>
      show applyOps (dirStep st p n).tree _ = _
      rw [dirStep_tree]
      rfl

theorem opsSubs_nil (p : List String) : opsSubs p [] = [] := by
  simp [opsSubs]

theorem opsSubs_file (p : List String) (n : String) (c : Option (List (List Char)))
    (es : List Entry) : opsSubs p (.file n c :: es) = opsSubs p es := by
  simp [opsSubs]

theorem opsSubs_dir (p : List String) (n : String) (sub es : List Entry) :
    opsSubs p (.dir n sub :: es) = opsDir (p ++ [n]) sub ++ opsSubs p es := by
  simp [opsSubs]

theorem opsDir_eq (p : List String) (es : List Entry) :
    opsDir p es = opsSubs p es ++ es.flatMap (entryFileOps p) ++ es.flatMap (entryAggOps p) := by
  simp [opsDir]

mutual

theorem walkSubs_tree (st : WalkSt) (p : List String) (l : List Entry) :
    (walkSubs st p l).tree = applyOps st.tree (opsSubs p l) := by
  match l with
  | [] =>
    rw [show walkSubs st p [] = st from by simp [walkSubs], opsSubs_nil]
    rfl
  | .file n c :: es =>
    rw [show walkSubs st p (.file n c :: es) = walkSubs st p es from by simp [walkSubs],
      opsSubs_file, walkSubs_tree st p es]
  | .dir n sub :: es =>
    rw [show walkSubs st p (.dir n sub :: es) = walkSubs (walkDir st (p ++ [n]) sub) p es
        from by simp [walkSubs],
      opsSubs_dir, walkSubs_tree (walkDir st (p ++ [n]) sub) p es,
      walkDir_tree st (p ++ [n]) sub, applyOps_append]
termination_by (sizeOf l, 0)

theorem walkDir_tree (st : WalkSt) (p : List String) (es : List Entry) :
    (walkDir st p es).tree = applyOps st.tree (opsDir p es) := by
  rw [show walkDir st p es
      = es.foldl (dirEntryStep p) (es.foldl (fileEntryStep p) (walkSubs st p es))
    from by simp [walkDir]]
  rw [dirsFold_tree, filesFold_tree, walkSubs_tree, opsDir_eq,
    applyOps_append, applyOps_append]
termination_by (sizeOf es, 1)

end

theorem flameTree_ops (fs : List Entry) :
    flameTree fs = applyOps ⟨".", [], 0, 0⟩ (opsDir [] fs) := by
  unfold flameTree flameWalk
  rw [walkDir_tree]

/-! ### Shapes of the operations' paths -/

theorem mem_fileOps (p : List String) (n : String) (c : Option (List (List Char)))
    (o : Op) (h : o ∈ fileOps p n c) : o.1 = p ++ n :: [] := by
  unfold fileOps at h
  by_cases h1 : matchesExt n = false
  · rw [if_pos h1] at h
    simp at h
  · rw [if_neg h1] at h
    by_cases h2 : fullName (p ++ [n]) ∈ excludedFiles
    · rw [if_pos h2] at h
      simp at h
    · rw [if_neg h2] at h
      cases c <;> simp only [List.mem_singleton] at h <;> rw [h]

theorem mem_filesPart (p : List String) (es : List Entry) (o : Op)
    (h : o ∈ es.flatMap (entryFileOps p)) :
    ∃ n c, Entry.file n c ∈ es ∧ o.1 = p ++ n :: [] := by
  obtain ⟨e, he, hoe⟩ := List.mem_flatMap.1 h
  cases e with
  | file n c => exact ⟨n, c, he, mem_fileOps p n c o hoe⟩
  | dir n sub => simp [entryAggOps, entryFileOps] at hoe

theorem mem_aggsPart (p : List String) (es : List Entry) (o : Op)
    (h : o ∈ es.flatMap (entryAggOps p)) :
    ∃ n sub, Entry.dir n sub ∈ es ∧ o = (p ++ [n], OpF.agg) := by
  obtain ⟨e, he, hoe⟩ := List.mem_flatMap.1 h
  cases e with
  | file n c => simp [entryFileOps, entryAggOps] at hoe
  | dir n sub =>
    simp only [entryAggOps, List.mem_singleton] at hoe
    exact ⟨n, sub, he, hoe⟩

mutual

theorem opsSubs_shape (p : List String) (l : List Entry) :
    ∀ o ∈ opsSubs p l, ∃ x r, o.1 = p ++ x :: r ∧ x ∈ l.map entryName := by
  match l with
  | [] =>
    rw [opsSubs_nil]
    simp
  | .file n c :: es =>
    rw [opsSubs_file]
    intro o ho
    obtain ⟨x, r, h1, h2⟩ := opsSubs_shape p es o ho
    exact ⟨x, r, h1, by simp [h2]⟩
  | .dir n sub :: es =>
    rw [opsSubs_dir]
    intro o ho
    rcases List.mem_append.1 ho with h | h
    · obtain ⟨x, r, h1, _⟩ := opsDir_shape (p ++ [n]) sub o h
      refine ⟨n, x :: r, ?_, by simp [entryName]⟩
      rw [h1]
      simp
    · obtain ⟨x, r, h1, h2⟩ := opsSubs_shape p es o h
      exact ⟨x, r, h1, by simp [h2]⟩
termination_by (sizeOf l, 0)

theorem opsDir_shape (p : List String) (es : List Entry) :
    ∀ o ∈ opsDir p es, ∃ x r, o.1 = p ++ x :: r ∧ x ∈ es.map entryName := by
  rw [opsDir_eq]
  intro o ho
  rcases List.mem_append.1 ho with ho | ho
  · rcases List.mem_append.1 ho with ho | ho
    · exact opsSubs_shape p es o ho
    · obtain ⟨n, c, he, h1⟩ := mem_filesPart p es o ho
      exact ⟨n, [], h1, List.mem_map_of_mem _ he⟩
  · obtain ⟨n, sub, he, h1⟩ := mem_aggsPart p es o ho
    exact ⟨n, [], by rw [h1], List.mem_map_of_mem _ he⟩
termination_by (sizeOf es, 1)

end

/-! ### The root node is never aggregated -/

theorem goNode_cons_todos (f : Node → Node) (c : String) (r : List String) (t : Node) :
    (goNode f (c :: r) t).todos = t.todos ∧ (goNode f (c :: r) t).locs = t.locs := by
  unfold goNode
  split <;> exact ⟨rfl, rfl⟩

theorem applyOps_root (ops : List Op) (h : ∀ o ∈ ops, o.1 ≠ []) :
    ∀ t : Node, (applyOps t ops).todos = t.todos ∧ (applyOps t ops).locs = t.locs := by
  induction ops with
  | nil => exact fun t => ⟨rfl, rfl⟩
  | cons o ops ih =>
    intro t
    have h0 : o.1 ≠ [] := h o (List.mem_cons_self _ _)
    have hrest : ∀ o' ∈ ops, o'.1 ≠ [] := fun o' ho' => h o' (List.mem_cons_of_mem _ ho')
    rw [show applyOps t (o :: ops) = applyOps (applyOp t o) ops from rfl,
      (ih hrest (applyOp t o)).1, (ih hrest (applyOp t o)).2]
    unfold applyOp
    match hp : o.1 with
    | [] => exact absurd hp h0
    | c :: r => exact goNode_cons_todos _ c r t

/-- The root `Node(".")` keeps its default zero counters: every operation the
walk performs targets a path of at least one segment below it. -/
theorem flameTree_root_zero (fs : List Entry) :
    (flameTree fs).todos = 0 ∧ (flameTree fs).locs = 0 := by
  rw [flameTree_ops]
  have h : ∀ o ∈ opsDir ([] : List String) fs, o.1 ≠ [] := by
    intro o ho
    obtain ⟨x, r, h1, _⟩ := opsDir_shape [] fs o ho
    rw [h1]
    simp
  exact applyOps_root _ h _

/-! ### Establishing and preserving the aggregation invariant -/

/-- A directory node whose counters equal the sums over its children. -/
def sums (n : Node) : Prop :=
  n.todos = sumTodos n.children ∧ n.locs = sumLocs n.children

/-- The invariant is established at path `q`. -/
def Est (t : Node) (q : List String) : Prop :=
  ∃ n, findPath t q = some n ∧ sums n

def Diverges (r q : List String) : Prop :=
  ∃ pre a b r₂ q₂, r = pre ++ a :: r₂ ∧ q = pre ++ b :: q₂ ∧ a ≠ b

/-- An operation cannot disturb the established invariant at `q` when its
path diverges from `q`, strictly extends `q`, or equals `q` with the
aggregation update (which re-establishes the sums). -/
def Keeps (o : Op) (q : List String) : Prop :=
  Diverges o.1 q ∨ (∃ b q₂, q = o.1 ++ b :: q₂) ∨ (o.1 = q ∧ o.2 = OpF.agg)

theorem sums_agg (m : Node) : sums (appF OpF.agg m) := ⟨rfl, rfl⟩

theorem est_applyOp (o : Op) (q : List String) (hq : Allowed q) (hk : Keeps o q) :
    ∀ t : Node, Est t q → Est (applyOp t o) q := by
  intro t hest
  rcases hk with ⟨pre, a, b, r₂, q₂, hr, hqeq, hab⟩ | ⟨b, q₂, hqeq⟩ | ⟨hr, hagg⟩
  · obtain ⟨n, hn, hs⟩ := hest
    refine ⟨n, ?_, hs⟩
    unfold applyOp
    rw [hr, hqeq]
    rw [findPath_goNode_diverge _ (appF_name o.2) pre a b r₂ q₂ t hab]
    rw [hqeq] at hn
    exact hn
  · obtain ⟨n, hn, hs⟩ := hest
    refine ⟨n, ?_, hs⟩
    unfold applyOp
    rw [hqeq]
    rw [findPath_goNode_deeper _ (appF_name o.2) (appF_children o.2) o.1 b q₂ t]
    rw [hqeq] at hn
    exact hn
  · refine ⟨appF OpF.agg (fetchPath t o.1), ?_, sums_agg _⟩
    unfold applyOp
    rw [hagg, hr]
    exact findPath_goNode_self _ (appF_name _) q t hq

theorem est_applyOps (ops : List Op) (q : List String) (hq : Allowed q)
    (hk : ∀ o ∈ ops, Keeps o q) :
    ∀ t : Node, Est t q → Est (applyOps t ops) q := by
  induction ops with
  | nil => exact fun t h => h
  | cons o ops ih =>
    intro t hest
    show Est (applyOps (applyOp t o) ops) q
    exact ih (fun o' ho' => hk o' (List.mem_cons_of_mem _ ho')) _
      (est_applyOp o q hq (hk o (List.mem_cons_self _ _)) t hest)

/-- Aggregating a path establishes the invariant there, whatever the tree held
before: the update rewrites the counters to the sums over the (unchanged)
children. -/
theorem est_agg (q : List String) (hq : Allowed q) (t : Node) :
    Est (applyOp t (q, OpF.agg)) q := by
  refine ⟨appF OpF.agg (fetchPath t q), ?_, sums_agg _⟩
  unfold applyOp
  exact findPath_goNode_self _ (appF_name _) q t hq

theorem WF.nodupNames {es : List Entry} (h : WF es) : (es.map entryName).Nodup := by
  cases h with
  | mk h1 _ => exact h1

theorem WF.inner {es : List Entry} {n : String} {sub : List Entry} (h : WF es)
    (hmem : Entry.dir n sub ∈ es) : WF sub := by
  cases h with
  | mk _ h2 => exact h2 n sub hmem

theorem DirAt.path_ne_nil {es sub : List Entry} (h : DirAt es [] sub) : False := by
  cases h

theorem allowed_append {p q : List String} (hp : Allowed p) (hq : Allowed q) :
    Allowed (p ++ q) :=
  fun c hc => (List.mem_append.1 hc).elim (hp c) (hq c)

theorem opsSubs_append (p : List String) (l₁ l₂ : List Entry) :
    opsSubs p (l₁ ++ l₂) = opsSubs p l₁ ++ opsSubs p l₂ := by
  induction l₁ with
  | nil =>
    rw [opsSubs_nil]
    rfl
  | cons e es ih =>
    cases e with
    | file n c => rw [List.cons_append, opsSubs_file, opsSubs_file, ih]
    | dir n sub => rw [List.cons_append, opsSubs_dir, opsSubs_dir, ih, List.append_assoc]

/-- The bottom-up aggregation invariant: after all the operations of a
directory walk, every reachable subdirectory (along a path avoiding the
excluded names) has a node whose counters are the sums over its children. -/
theorem est_opsDir {es : List Entry} {q : List String} {sub : List Entry}
    (h : DirAt es q sub) :
    ∀ (p : List String) (t : Node), WF es → Allowed p → Allowed q →
      Est (applyOps t (opsDir p es)) (p ++ q) := by
  induction h with
  | here hmem =>
    rename_i es1 m sub1
    intro p t hwf hap haq
    have hm : banned m = false := haq m (by simp)
    have hpm : Allowed (p ++ [m]) :=
      allowed_append hap (fun c hc => by simp at hc; rw [hc]; exact hm)
    obtain ⟨es₁, es₂, hsplit⟩ := List.append_of_mem hmem
    have hnd := hwf.nodupNames
    rw [hsplit, List.map_append, List.map_cons] at hnd
    have hnotmem : entryName (Entry.dir m sub1) ∉ es₁.map entryName ++ es₂.map entryName :=
      (List.nodup_cons.1 (List.nodup_middle.1 hnd)).1
    have hm2 : m ∉ es₂.map entryName := by
      intro hx
      exact hnotmem (List.mem_append_right _ (by simpa [entryName] using hx))
    have haggs : es1.flatMap (entryAggOps p)
        = es₁.flatMap (entryAggOps p)
          ++ (p ++ [m], OpF.agg) :: es₂.flatMap (entryAggOps p) := by
      rw [hsplit, List.flatMap_append, List.flatMap_cons]
      rfl
    rw [opsDir_eq, applyOps_append, haggs, applyOps_append]
    rw [show ∀ (X : Node),
        applyOps X ((p ++ [m], OpF.agg) :: es₂.flatMap (entryAggOps p))
          = applyOps (applyOp X (p ++ [m], OpF.agg)) (es₂.flatMap (entryAggOps p))
      from fun X => rfl]
    refine est_applyOps _ (p ++ [m]) hpm ?_ _ (est_agg (p ++ [m]) hpm _)
    intro o ho
    obtain ⟨m', sub', hmem', ho'⟩ := mem_aggsPart p es₂ o ho
    have hne : m' ≠ m := by
      intro e
      exact hm2 (e ▸ List.mem_map_of_mem entryName hmem')
    exact Or.inl ⟨p, m', m, [], [], by rw [ho'], rfl, hne⟩
  | there hmem hsub ih =>
    rename_i es1 m sub1 sub2 q'
    intro p t hwf hap haq
    have hm : banned m = false := haq m (by simp)
    have haq' : Allowed q' := fun c hc => haq c (List.mem_cons_of_mem _ hc)
    have hpm : Allowed (p ++ [m]) :=
      allowed_append hap (fun c hc => by simp at hc; rw [hc]; exact hm)
    have htar : Allowed ((p ++ [m]) ++ q') := allowed_append hpm haq'
    have hq'ne : q' ≠ [] := by
      intro e
      exact (e ▸ hsub).path_ne_nil
    obtain ⟨b, q₂, hq'⟩ : ∃ b q₂, q' = b :: q₂ := by
      match q' with
      | [] => exact absurd rfl hq'ne
      | b :: q₂ => exact ⟨b, q₂, rfl⟩
    obtain ⟨es₁, es₂, hsplit⟩ := List.append_of_mem hmem
    have hnd := hwf.nodupNames
    rw [hsplit, List.map_append, List.map_cons] at hnd
    have hnotmem : entryName (Entry.dir m sub1) ∉ es₁.map entryName ++ es₂.map entryName :=
      (List.nodup_cons.1 (List.nodup_middle.1 hnd)).1
    have hm2 : m ∉ es₂.map entryName := by
      intro hx
      exact hnotmem (List.mem_append_right _ (by simpa [entryName] using hx))
    have hsubs : opsSubs p es1
        = opsSubs p es₁ ++ (opsDir (p ++ [m]) sub1 ++ opsSubs p es₂) := by
      rw [hsplit, opsSubs_append, opsSubs_dir]
    have heq : (p ++ [m]) ++ q' = p ++ (m :: q') := by simp
    rw [opsDir_eq, applyOps_append, applyOps_append, hsubs, applyOps_append,
      applyOps_append, ← heq]
    have hest : Est (applyOps (applyOps t (opsSubs p es₁)) (opsDir (p ++ [m]) sub1))
        ((p ++ [m]) ++ q') :=
      ih (p ++ [m]) _ (hwf.inner hmem) hpm haq'
    refine est_applyOps _ _ htar ?_ _ (est_applyOps _ _ htar ?_ _
      (est_applyOps _ _ htar ?_ _ hest))
    · -- the aggregation operations of the current directory
      intro o ho
      obtain ⟨m', sub', hmem', ho'⟩ := mem_aggsPart p es1 o ho
      by_cases hmm : m' = m
      · refine Or.inr (Or.inl ⟨b, q₂, ?_⟩)
        rw [ho', hmm, hq']
      · refine Or.inl ⟨p, m', m, [], q', by rw [ho'], by rw [heq], hmm⟩
    · -- the file operations of the current directory
      intro o ho
      obtain ⟨n', c', hmem', ho'⟩ := mem_filesPart p es1 o ho
      have hne : n' ≠ m := by
        intro e
        have : Entry.file n' c' = Entry.dir m sub1 :=
          List.inj_on_of_nodup_map hwf.nodupNames hmem' hmem (by simp [entryName, e])
        exact nomatch this
      exact Or.inl ⟨p, n', m, [], q', ho', by rw [heq], hne⟩
    · -- the subtree walks of the later sibling directories
      intro o ho
      obtain ⟨x, r, ho', hx⟩ := opsSubs_shape p es₂ o ho
      have hne : x ≠ m := fun e => hm2 (e ▸ hx)
      exact Or.inl ⟨p, x, m, r, q', ho', by rw [heq], hne⟩

/-- C2 amended: in the tree built by the walk, every **non-root** directory —
any directory reachable in the scanned file system along a path free of the
two excluded names, in a file system with distinct sibling names — has a node
whose pending-work count and line count equal the sums of its direct
children's; the root node `"."`, however, is never aggregated (no `get_node`
path ever names it) and always keeps both counters at zero. -/
theorem c2_amended_directory_sums :
    ∀ fs : List Entry, WF fs →
      (∀ q sub, DirAt fs q sub → Allowed q →
        ∃ n, findPath (flameTree fs) q = some n ∧
          n.todos = sumTodos n.children ∧ n.locs = sumLocs n.children) ∧
      (flameTree fs).todos = 0 ∧ (flameTree fs).locs = 0 := by
  intro fs hwf
  refine ⟨?_, flameTree_root_zero fs⟩
  intro q sub hq hallow
  have h := est_opsDir hq [] ⟨".", [], 0, 0⟩ hwf (by intro c hc; simp at hc) hallow
  rw [← flameTree_ops] at h
  exact h

def exFs : List Entry :=
  [.dir "Kernel" [.file "main.cpp" (some ["// FIXME now".toList, "int x;".toList])]]

theorem exFs_wf : WF exFs := by
  refine WF.mk (by simp [exFs, entryName]) ?_
  intro n sub h
  simp only [exFs, List.mem_singleton] at h
  injection h with h1 h2
  subst h2
  refine WF.mk (by simp [entryName]) ?_
  intro n' sub' h'
  simp at h'

/-- C2 amended witness: the invariant instantiated at the concrete directory
`"Kernel"` of a two-line file system. -/
theorem c2_amended_directory_sums_witness :
    ∃ n, findPath (flameTree exFs) ["Kernel"] = some n ∧
      n.todos = sumTodos n.children ∧ n.locs = sumLocs n.children :=
  (c2_amended_directory_sums exFs exFs_wf).1 ["Kernel"]
    [.file "main.cpp" (some ["// FIXME now".toList, "int x;".toList])]
    (DirAt.here (by simp [exFs]))
    (by intro c hc; simp at hc; rw [hc]; decide)

def cexFs : List Entry := [.file "a.h" (some ["x FIXME".toList])]

/-- C2 counterexample: the claim includes the root among the directory nodes
whose counters equal their children's sums, but for a file system holding one
header file with one pending-work marker the root node keeps `todos = 0`
while its children sum to 1. -/
theorem c2_counterexample :
    (flameTree cexFs).name = "." ∧ (flameTree cexFs).todos = 0 ∧
    sumTodos (flameTree cexFs).children = 1 ∧
    ¬ ((flameTree cexFs).todos = sumTodos (flameTree cexFs).children) := by
  refine ⟨?_, ?_, ?_, ?_⟩ <;>
    simp +decide [cexFs, flameTree, flameWalk, walkDir, walkSubs, fileEntryStep,
      dirEntryStep, fileStep, goNode, setChild, sumTodos]

end SerenityFixmes
